import Mathlib

/-!
Verification development for the hh_ne04j hybrid job-recommendation core.

The Python sources are shallowly embedded as Lean definitions:

* `src/config.py`              → `Settings`, `settings`
* `src/src/database/models.py` → `FeedbackType`, `UserRec`, `VacancyRec`,
                                 `UserFeedback`, `RecommendationScore`
* `src/src/database/neo4j_client.py` → the `connected` flag of `GraphState`;
  `execute_query` returns an empty result list both for "no match" and for
  every store failure (it catches every exception), so the embedded query
  functions return `[]` when `connected = false` and never fail.
* `src/src/services/vacancy_service.py` → `get_content_recommendations`,
  `get_graph_recommendations`, `get_semantic_recommendations`,
  `combine_recommendations`, `get_recommendations`, `vacancySkillKey`
* `src/src/services/user_service.py` → `userSkillKey`,
  `update_user_preferences_prefs`, `update_user_preferences`
* `src/src/services/feedback_service.py` → `prefSkillKey`,
  `buildSkillWeights`, `update_user_preferences_from_feedback`,
  `record_feedback`

Numeric values (Python floats) are embedded as exact rationals `ℚ`;
the configuration literals 0.3 / 0.4 / 0.3 / 0.1 / 0.01 become
3/10, 4/10, 3/10, 1/10, 1/100.

The Cypher queries are embedded relationally over an explicit `GraphState`
(lists of user records, vacancy records, HAS_SKILL edges and feedback
edges).  Neo4j `MERGE` keeps node ids unique, so where node identity
matters the theorems carry a `Nodup` hypothesis on the stored ids.
`ORDER BY ... DESC` leaves the relative order of ties unspecified; the
embedding fixes one concrete order (`List.insertionSort`), and every
theorem below uses only facts (membership, length, lookups under
duplicate-free keys) that are invariant under the choice of tie order.
Python's `dict` iteration order is insertion order, which `dictSet`
reproduces; the iteration order of a Python `set` is runtime-dependent,
so it is passed to `combine_recommendations` as an explicit `setOrder`
argument.
-/

namespace HHNeo4j

/-! ### String normalization helpers

`pyLowerChar` models Python `str.lower()` character-wise on the ASCII
range (the range exercised by every skill key compared in the claims);
an explicit table is used so that idempotence and preservation facts are
provable by case analysis. -/

def pyLowerChar (c : Char) : Char :=
  match c with
  | 'A' => 'a' | 'B' => 'b' | 'C' => 'c' | 'D' => 'd' | 'E' => 'e'
  | 'F' => 'f' | 'G' => 'g' | 'H' => 'h' | 'I' => 'i' | 'J' => 'j'
  | 'K' => 'k' | 'L' => 'l' | 'M' => 'm' | 'N' => 'n' | 'O' => 'o'
  | 'P' => 'p' | 'Q' => 'q' | 'R' => 'r' | 'S' => 's' | 'T' => 't'
  | 'U' => 'u' | 'V' => 'v' | 'W' => 'w' | 'X' => 'x' | 'Y' => 'y'
  | 'Z' => 'z'
  | c => c

/-- Python `s.lower()`. -/
def pyLower (s : String) : String := ⟨s.data.map pyLowerChar⟩

/-- Python `s.replace(' ', '_')`. -/
def spaceToUnderscore (s : String) : String :=
  ⟨s.data.map (fun c => if c = ' ' then '_' else c)⟩

/-- Python `s.replace('.', '')`. -/
def dropDots (s : String) : String := ⟨s.data.filter (fun c => c ≠ '.')⟩

/-- Skill key derived on the ingestion-facing vacancy save path,
`vacancy_service.py` line 68: `skill_name.lower().replace(' ', '_').replace('.', '')`. -/
def vacancySkillKey (s : String) : String := dropDots (spaceToUnderscore (pyLower s))

/-- Skill key derived by the preference updater,
`feedback_service.py` line 63: `skill.lower().replace(' ', '_')`. -/
def prefSkillKey (s : String) : String := spaceToUnderscore (pyLower s)

/-- Skill key derived on the user save path,
`user_service.py` lines 45 and 86: `skill_name.lower().replace(' ', '_')`. -/
def userSkillKey (s : String) : String := spaceToUnderscore (pyLower s)

/-- Modelled from the spec: the single `normalizeSkillKey` the spec posits
(case-fold, space→underscore), for the refinement comparison of C3. -/
def specNormalizeSkillKey (s : String) : String := spaceToUnderscore (pyLower s)

/-! ### Configuration (`config.py`) -/

structure Settings where
  content_weight : ℚ
  graph_weight : ℚ
  semantic_weight : ℚ
  learning_rate : ℚ
  regularization_lambda : ℚ

/-- The literal configuration values of `config.py` lines 21-28. -/
def settings : Settings := ⟨3/10, 4/10, 3/10, 1/10, 1/100⟩

/-! ### Data model (`models.py`) -/

inductive FeedbackType where
  | LIKE | DISLIKE | VIEW | APPLY
deriving DecidableEq, Repr

/-- A stored `User` node: id, skills, preference mapping (a JSON dict in
the store, embedded as an insertion-ordered association list) and an
optional embedding vector. -/
structure UserRec where
  id : String
  skills : List String
  preferences : List (String × ℚ)
  embedding : Option (List ℚ)
deriving DecidableEq, Repr

/-- A stored `Vacancy` node, restricted to the fields the scoring core
reads: id, required-skill list and optional embedding vector. -/
structure VacancyRec where
  id : String
  skills : List String
  embedding : Option (List ℚ)
deriving DecidableEq, Repr

structure UserFeedback where
  user_id : String
  vacancy_id : String
  feedback_type : FeedbackType
deriving DecidableEq, Repr

structure RecommendationScore where
  vacancy : VacancyRec
  content_score : ℚ
  graph_score : ℚ
  semantic_score : ℚ
  total_score : ℚ
deriving DecidableEq, Repr

/-- The graph store: `User` and `Vacancy` nodes, `HAS_SKILL` edges
(user id, skill id) and feedback edges (user id, vacancy id, kind);
`connected` is false when the Neo4j driver could not be created, in
which case every `execute_query` call returns the empty list. -/
structure GraphState where
  users : List UserRec
  vacancies : List VacancyRec
  hasSkill : List (String × String)
  feedback : List (String × String × FeedbackType)
  connected : Bool
deriving DecidableEq, Repr

def findUser (st : GraphState) (uid : String) : Option UserRec :=
  st.users.find? (fun u => u.id == uid)

def userExists (st : GraphState) (uid : String) : Bool :=
  (findUser st uid).isSome

def findVacancy (st : GraphState) (vid : String) : Option VacancyRec :=
  st.vacancies.find? (fun v => v.id == vid)

/-! ### Python dict operations

A Python dict assignment keeps the position of an existing key and
appends a fresh key at the end. -/

def dictSet (d : List (String × ℚ)) (k : String) (v : ℚ) : List (String × ℚ) :=
  if (d.lookup k).isSome then
    d.map (fun p => if p.1 = k then (k, v) else p)
  else
    d ++ [(k, v)]

def clamp01 (x : ℚ) : ℚ := max 0 (min 1 x)

/-! ### Preference update (`user_service.py` lines 76-107,
`feedback_service.py` lines 41-71) -/

/-- The weight written for one skill entry (`user_service.py` lines
87-96): learning-rate delta (plus for LIKE, minus otherwise), then the
regularization factor, then the clamp into `[0, 1]`. -/
def prefNewWeight (current : ℚ) (ft : FeedbackType) (w : ℚ) : ℚ :=
  clamp01 ((if ft = FeedbackType.LIKE then current + settings.learning_rate * w
            else current - settings.learning_rate * w)
           * (1 - settings.regularization_lambda))

/-- One iteration of the `for skill_name, weight_change in ...` loop:
re-normalize the key, read the current weight (default 0), write the
new weight into the same in-memory mapping. -/
def prefStep (prefs : List (String × ℚ)) (ft : FeedbackType)
    (sw : String × ℚ) : List (String × ℚ) :=
  let skillId := userSkillKey sw.1
  dictSet prefs skillId (prefNewWeight ((prefs.lookup skillId).getD 0) ft sw.2)

/-- The in-memory loop of `UserService.update_user_preferences`
(lines 85-96), iterating the dict entries in insertion order. -/
def update_user_preferences_prefs (prefs : List (String × ℚ))
    (ft : FeedbackType) (skillWeights : List (String × ℚ)) : List (String × ℚ) :=
  skillWeights.foldl (fun cur sw => prefStep cur ft sw) prefs

/-- `FeedbackService._update_user_preferences` lines 57-64: one dict
entry per (normalized) listing skill, each valued `1 / len(skills)`. -/
def buildSkillWeights (skills : List String) : List (String × ℚ) :=
  let weightPerSkill : ℚ := 1 / (skills.length : ℚ)
  skills.foldl (fun d skill => dictSet d (prefSkillKey skill) weightPerSkill) []

/-- Overwrite the preference mapping stored for every user node whose id
matches (the `SET u.preferences = $preferences` persist query). -/
def setUserPrefs (st : GraphState) (uid : String) (prefs : List (String × ℚ)) : GraphState :=
  ⟨st.users.map (fun u => if u.id == uid then ⟨u.id, u.skills, prefs, u.embedding⟩ else u),
   st.vacancies, st.hasSkill, st.feedback, st.connected⟩

/-- `UserService.update_user_preferences` (lines 76-107): load the user
(an unreachable store yields no rows, hence no user, hence no change),
update the in-memory mapping, persist the full mapping back. -/
def update_user_preferences (st : GraphState) (uid : String)
    (ft : FeedbackType) (skillWeights : List (String × ℚ)) : GraphState :=
  if st.connected then
    match findUser st uid with
    | none => st
    | some u => setUserPrefs st uid (update_user_preferences_prefs u.preferences ft skillWeights)
  else st

/-- `FeedbackService._update_user_preferences` (lines 41-71): read the
vacancy's stored skill list (empty result when the vacancy is missing or
the store is unreachable), skip entirely when the list is empty, else
delegate to `UserService.update_user_preferences`. -/
def update_user_preferences_from_feedback (st : GraphState) (fb : UserFeedback) : GraphState :=
  if st.connected then
    match findVacancy st fb.vacancy_id with
    | none => st
    | some v =>
      if v.skills.isEmpty then st
      else update_user_preferences st fb.user_id fb.feedback_type (buildSkillWeights v.skills)
  else st

/-- The `MERGE (u)-[r:KIND]->(v)` write of `record_feedback`: requires
both nodes to exist; at most one edge per kind per pair. -/
def mergeFeedbackEdge (st : GraphState) (fb : UserFeedback) : GraphState :=
  if userExists st fb.user_id && (findVacancy st fb.vacancy_id).isSome then
    if st.feedback.contains (fb.user_id, fb.vacancy_id, fb.feedback_type) then st
    else ⟨st.users, st.vacancies, st.hasSkill,
          st.feedback ++ [(fb.user_id, fb.vacancy_id, fb.feedback_type)], st.connected⟩
  else st

/-- `FeedbackService.record_feedback` (lines 15-39).  With the client of
`neo4j_client.py`, `execute_query` catches every exception internally
and returns `[]` on failure, so no call inside the `try` block can
raise: the `except` branch returning `False` is unreachable and the
function returns `True` on every path, store reachable or not. -/
def record_feedback (st : GraphState) (fb : UserFeedback) : Bool × GraphState :=
  let st1 := if st.connected then mergeFeedbackEdge st fb else st
  let st2 :=
    if fb.feedback_type = FeedbackType.LIKE ∨ fb.feedback_type = FeedbackType.DISLIKE then
      update_user_preferences_from_feedback st1 fb
    else st1
  (true, st2)

/-- Fold a sequence of feedback events through `record_feedback`. -/
def apply_feedbacks (st : GraphState) (fbs : List UserFeedback) : GraphState :=
  fbs.foldl (fun s fb => (record_feedback s fb).2) st

/-! ### Scoring pipeline (`vacancy_service.py` lines 130-286) -/

/-- Descending order on the score component of a query row. -/
def scoreLE (a b : String × ℚ) : Prop := b.2 ≤ a.2

instance : DecidableRel scoreLE :=
  fun a b => inferInstanceAs (Decidable (b.2 ≤ a.2))

instance : IsTotal (String × ℚ) scoreLE := ⟨fun a b => le_total b.2 a.2⟩

instance : IsTrans (String × ℚ) scoreLE := ⟨fun _ _ _ h1 h2 => le_trans h2 h1⟩

/-- The `ORDER BY score DESC` of the content and graph queries.  Neo4j
leaves the relative order of equal scores unspecified; the embedding
fixes one order, and the theorems only use order-independent facts. -/
def sortByScoreDesc (rows : List (String × ℚ)) : List (String × ℚ) :=
  List.insertionSort scoreLE rows

/-- One row of the content query per stored vacancy:
`size([skill IN vacancy_skills WHERE skill IN user_skills])` counts the
skill-list entries (with multiplicity) present in the user's skills. -/
def contentRows (st : GraphState) (u : UserRec) : List (String × ℚ) :=
  (st.vacancies.filter (fun v => v.skills.length > 0)).map
    (fun v => (v.id,
      ((v.skills.countP (fun skill => decide (skill ∈ u.skills))) : ℚ) / (v.skills.length : ℚ)))

/-- `VacancyService._get_content_recommendations` (lines 148-170): the
Cypher query matches the user node (no rows when it is absent or the
store is unreachable), keeps vacancies with `size(vacancy_skills) > 0`,
orders by score descending and truncates to 100 rows. -/
def get_content_recommendations (st : GraphState) (uid : String) : List (String × ℚ) :=
  if st.connected then
    match findUser st uid with
    | none => []
    | some u => (sortByScoreDesc (contentRows st u)).take 100
  else []

/-- `(:User {id: $user_id})-[:LIKED|DISLIKED]->(v)` exists. -/
def ratedByTarget (st : GraphState) (uid vid : String) : Bool :=
  st.feedback.any (fun e =>
    e.1 == uid && e.2.1 == vid &&
      (e.2.2 == FeedbackType.LIKE || e.2.2 == FeedbackType.DISLIKE))

/-- `(u1)-[:HAS_SKILL]->(s)<-[:HAS_SKILL]-(u2)` for some skill node. -/
def sharesSkillWith (st : GraphState) (uid uid2 : String) : Bool :=
  st.hasSkill.any (fun e => e.1 == uid && st.hasSkill.contains (uid2, e.2))

def likedBy (st : GraphState) (uid2 vid : String) : Bool :=
  st.feedback.contains (uid2, vid, FeedbackType.LIKE)

/-- The distinct ids of the other users sharing at least one skill node
with the target user who liked the given vacancy (`COUNT(DISTINCT u2)`). -/
def similarUsers (st : GraphState) (uid vid : String) : List String :=
  ((st.users.filter (fun u2 =>
      u2.id != uid && sharesSkillWith st uid u2.id && likedBy st u2.id vid)).map
    (fun u2 => u2.id)).dedup

def similarUsersCount (st : GraphState) (uid vid : String) : Nat :=
  (similarUsers st uid vid).length

/-- One row per vacancy liked by at least one similar user and not
already rated (LIKE or DISLIKE) by the target user. -/
def graphRows (st : GraphState) (uid : String) : List (String × ℚ) :=
  (st.vacancies.filter (fun v =>
      !(ratedByTarget st uid v.id) && decide (0 < similarUsersCount st uid v.id))).map
    (fun v => (v.id, (similarUsersCount st uid v.id : ℚ)))

/-- `VacancyService._get_graph_recommendations` (lines 172-193): the
query needs the target user node to match (no rows otherwise), orders by
count descending and truncates to 100 rows. -/
def get_graph_recommendations (st : GraphState) (uid : String) : List (String × ℚ) :=
  if st.connected then
    if userExists st uid then (sortByScoreDesc (graphRows st uid)).take 100 else []
  else []

/-- `VacancyService._get_semantic_recommendations` (lines 195-227).
The embedding provider is an external collaborator, so the similarity
function `sim` is a parameter; an empty embedding list is falsy in
Python and treated like a missing one, and negative similarities are
clamped to 0 by `max(0, similarity)`. -/
def get_semantic_recommendations (st : GraphState) (sim : List ℚ → List ℚ → ℚ)
    (uid : String) : List (String × ℚ) :=
  if st.connected then
    match findUser st uid with
    | none => []
    | some u =>
      match u.embedding with
      | none => []
      | some emb =>
        if emb = [] then []
        else
          ((st.vacancies.filter (fun v => v.embedding.isSome)).take 100).filterMap
            (fun v =>
              match v.embedding with
              | none => none
              | some ve => if ve = [] then none else some (v.id, max 0 (sim emb ve)))
  else []

/-- `VacancyService._get_vacancy_by_id` (lines 274-286): resolves an id
back to a stored vacancy; `none` when unresolved or the store is
unreachable. -/
def get_vacancy_by_id (st : GraphState) (vid : String) : Option VacancyRec :=
  if st.connected then findVacancy st vid else none

/-- `max(m.values()) if m else 1` (lines 241-243). -/
def maxValues : List (String × ℚ) → ℚ
  | [] => 1
  | p :: ps => ps.foldl (fun acc q => max acc q.2) p.2

/-- `if max > 0: score /= max` (lines 245-250). -/
def normalizeBy (mx x : ℚ) : ℚ := if 0 < mx then x / mx else x

/-- The ScoreNormalizer of the spec, exactly the per-mapping logic the
combiner applies: divide every value by the mapping's maximum when the
mapping is non-empty and its maximum is positive, else leave it as is. -/
def normalizeScores (m : List (String × ℚ)) : List (String × ℚ) :=
  if m.isEmpty then m
  else if 0 < maxValues m then m.map (fun p => (p.1, p.2 / maxValues m)) else m

/-- `total_score` (lines 252-257). -/
def total_score_formula (c g s : ℚ) : ℚ :=
  settings.content_weight * c + settings.graph_weight * g + settings.semantic_weight * s

/-- Descending order on `total_score`. -/
def recLE (a b : RecommendationScore) : Prop := b.total_score ≤ a.total_score

instance : DecidableRel recLE :=
  fun a b => inferInstanceAs (Decidable (b.total_score ≤ a.total_score))

instance : IsTotal RecommendationScore recLE := ⟨fun a b => le_total b.total_score a.total_score⟩

instance : IsTrans RecommendationScore recLE := ⟨fun _ _ _ h1 h2 => le_trans h2 h1⟩

/-- The candidate-building loop of `_combine_recommendations` (lines
234-268): one `RecommendationScore` per id of the set union whose
vacancy resolves, with each component normalized by its mapping's
maximum (the maxima are recomputed inside the loop in the source) and
the total the weighted sum of the normalized components.  `setOrder` is
the runtime-dependent iteration order of the Python set union `all_ids`;
`resolve` is `_get_vacancy_by_id` (ids failing to resolve are dropped). -/
def candidateRecs (resolve : String → Option VacancyRec)
    (contentScores graphScores semanticScores : List (String × ℚ))
    (setOrder : List String) : List RecommendationScore :=
  setOrder.filterMap (fun vid =>
    match resolve vid with
    | none => none
    | some vac =>
      let cs := normalizeBy (maxValues contentScores) ((contentScores.lookup vid).getD 0)
      let gs := normalizeBy (maxValues graphScores) ((graphScores.lookup vid).getD 0)
      let ss := normalizeBy (maxValues semanticScores) ((semanticScores.lookup vid).getD 0)
      some ⟨vac, cs, gs, ss, total_score_formula cs gs ss⟩)

/-- `VacancyService._combine_recommendations` (lines 229-272): build the
candidates, sort by total descending (`list.sort` is stable, so ties
keep the `setOrder` order) and truncate to `limit`. -/
def combine_recommendations (resolve : String → Option VacancyRec)
    (contentScores graphScores semanticScores : List (String × ℚ))
    (setOrder : List String) (limit : Nat) : List RecommendationScore :=
  (List.insertionSort recLE
    (candidateRecs resolve contentScores graphScores semanticScores setOrder)).take limit

/-- `VacancyService.get_recommendations` (lines 130-146). -/
def get_recommendations (st : GraphState) (sim : List ℚ → List ℚ → ℚ)
    (uid : String) (setOrder : List String) (limit : Nat) : List RecommendationScore :=
  combine_recommendations (get_vacancy_by_id st)
    (get_content_recommendations st uid)
    (get_graph_recommendations st uid)
    (get_semantic_recommendations st sim uid)
    setOrder limit

/-! ### Character-level facts about the key normalization -/

def asciiUppercase : List Char :=
  ['A', 'B', 'C', 'D', 'E', 'F', 'G', 'H', 'I', 'J', 'K', 'L', 'M',
   'N', 'O', 'P', 'Q', 'R', 'S', 'T', 'U', 'V', 'W', 'X', 'Y', 'Z']

theorem pyLowerChar_of_not_upper {c : Char} (h : c ∉ asciiUppercase) :
    pyLowerChar c = c := by
  unfold pyLowerChar
  split <;> simp_all [asciiUppercase]

theorem pyLowerChar_not_upper (c : Char) : pyLowerChar c ∉ asciiUppercase := by
  unfold pyLowerChar
  split <;> simp_all [asciiUppercase]

theorem pyLowerChar_idem (c : Char) :
    pyLowerChar (pyLowerChar c) = pyLowerChar c :=
  pyLowerChar_of_not_upper (pyLowerChar_not_upper c)

theorem pyLowerChar_eq_dot {c : Char} (h : pyLowerChar c = '.') : c = '.' := by
  revert h
  unfold pyLowerChar
  split <;> simp_all

theorem pyLowerChar_eq_space {c : Char} (h : pyLowerChar c = ' ') : c = ' ' := by
  revert h
  unfold pyLowerChar
  split <;> simp_all

/-- The character map underlying `prefSkillKey` and `userSkillKey`. -/
def prefKeyChar (c : Char) : Char :=
  if pyLowerChar c = ' ' then '_' else pyLowerChar c

theorem prefSkillKey_data (s : String) :
    (prefSkillKey s).data = s.data.map prefKeyChar := by
  simp [prefSkillKey, spaceToUnderscore, pyLower, prefKeyChar, List.map_map]

theorem prefKeyChar_idem (c : Char) : prefKeyChar (prefKeyChar c) = prefKeyChar c := by
  by_cases h : pyLowerChar c = ' '
  · have hc : prefKeyChar c = '_' := by simp [prefKeyChar, h]
    rw [hc]
    decide
  · have hc : prefKeyChar c = pyLowerChar c := by simp [prefKeyChar, h]
    rw [hc]
    simp [prefKeyChar, pyLowerChar_idem c, h]

theorem prefKeyChar_ne_dot {c : Char} (h : c ≠ '.') : prefKeyChar c ≠ '.' := by
  unfold prefKeyChar
  split
  · decide
  · exact fun hd => h (pyLowerChar_eq_dot hd)

theorem prefSkillKey_idem (s : String) :
    prefSkillKey (prefSkillKey s) = prefSkillKey s := by
  apply String.ext
  rw [prefSkillKey_data, prefSkillKey_data, List.map_map]
  exact List.map_congr_left fun c _ => prefKeyChar_idem c

theorem userSkillKey_eq_prefSkillKey (s : String) : userSkillKey s = prefSkillKey s := rfl

/-! ### Association-list lemmas -/

theorem lookup_mem {l : List (String × ℚ)} {k : String} {v : ℚ}
    (h : l.lookup k = some v) : (k, v) ∈ l := by
  induction l with
  | nil => simp at h
  | cons p ps ih =>
    obtain ⟨k1, v1⟩ := p
    rw [List.lookup_cons] at h
    by_cases hk : k = k1
    · subst hk
      simp only [beq_self_eq_true] at h
      obtain rfl : v1 = v := by exact Option.some.inj h
      exact List.mem_cons_self _ _
    · simp only [beq_false_of_ne hk] at h
      exact List.mem_cons_of_mem _ (ih h)

theorem lookup_eq_none_keys {l : List (String × ℚ)} {k : String} :
    l.lookup k = none ↔ k ∉ l.map Prod.fst := by
  rw [List.lookup_eq_none_iff]
  constructor
  · intro h hk
    obtain ⟨p, hp, hpk⟩ := List.mem_map.mp hk
    have h2 := h p hp
    simp [hpk] at h2
  · intro h p hp
    have hne : k ≠ p.1 := fun he => h (List.mem_map.mpr ⟨p, hp, he.symm⟩)
    simpa [bne_iff_ne] using hne

theorem lookup_of_mem_nodup {l : List (String × ℚ)} {k : String} {v : ℚ}
    (hn : (l.map Prod.fst).Nodup) (hm : (k, v) ∈ l) : l.lookup k = some v := by
  induction l with
  | nil => simp at hm
  | cons p ps ih =>
    obtain ⟨k1, v1⟩ := p
    simp only [List.map_cons, List.nodup_cons] at hn
    rcases List.mem_cons.mp hm with he | hm2
    · obtain ⟨rfl, rfl⟩ := Prod.mk.injEq .. ▸ he
      simp [List.lookup_cons]
    · have hk : k ≠ k1 := by
        intro he
        subst he
        exact hn.1 (List.mem_map.mpr ⟨(k, v), hm2, rfl⟩)
      rw [List.lookup_cons]
      simpa [beq_false_of_ne hk] using ih hn.2 hm2

theorem lookup_eq_of_perm {l l' : List (String × ℚ)}
    (hn : (l.map Prod.fst).Nodup) (hp : l.Perm l') (k : String) :
    l.lookup k = l'.lookup k := by
  have hn' : (l'.map Prod.fst).Nodup := ((hp.map Prod.fst).nodup_iff).mp hn
  cases hl : l.lookup k with
  | none =>
    have hk := lookup_eq_none_keys.mp hl
    have hk' : k ∉ l'.map Prod.fst := fun hmem => hk (((hp.map Prod.fst).mem_iff).mpr hmem)
    exact (lookup_eq_none_keys.mpr hk').symm
  | some v =>
    exact (lookup_of_mem_nodup hn' (hp.mem_iff.mp (lookup_mem hl))).symm

/-! ### Dictionary-update lemmas -/

theorem lookup_map_replace (d : List (String × ℚ)) (k : String) (v : ℚ) :
    (d.map (fun p => if p.1 = k then (k, v) else p)).lookup k =
      if (d.lookup k).isSome then some v else none := by
  induction d with
  | nil => simp
  | cons p ps ih =>
    obtain ⟨k1, v1⟩ := p
    by_cases hk : k1 = k
    · subst hk
      simp [List.lookup_cons]
    · simp only [List.map_cons, if_neg hk, List.lookup_cons,
        beq_false_of_ne (Ne.symm hk)]
      exact ih

theorem lookup_map_replace_ne (d : List (String × ℚ)) (k k' : String) (v : ℚ)
    (hne : k' ≠ k) :
    (d.map (fun p => if p.1 = k then (k, v) else p)).lookup k' = d.lookup k' := by
  induction d with
  | nil => simp
  | cons p ps ih =>
    obtain ⟨k1, v1⟩ := p
    simp only [List.map_cons]
    by_cases hk : k1 = k
    · subst hk
      rw [if_pos rfl, List.lookup_cons, List.lookup_cons]
      simp only [beq_false_of_ne hne]
      exact ih
    · rw [if_neg hk, List.lookup_cons, List.lookup_cons]
      cases hbeq : (k' == k1) with
      | true => rfl
      | false => exact ih

theorem lookup_append_single_self (d : List (String × ℚ)) (k : String) (v : ℚ)
    (h : d.lookup k = none) : (d ++ [(k, v)]).lookup k = some v := by
  induction d with
  | nil => simp [List.lookup_cons]
  | cons p ps ih =>
    obtain ⟨k1, v1⟩ := p
    rw [List.lookup_cons] at h
    rw [List.cons_append, List.lookup_cons]
    cases hbeq : (k == k1) with
    | true => simp [hbeq] at h
    | false =>
      rw [hbeq] at h
      exact ih h

theorem lookup_append_single_ne (d : List (String × ℚ)) (k k' : String) (v : ℚ)
    (hne : k' ≠ k) : (d ++ [(k, v)]).lookup k' = d.lookup k' := by
  induction d with
  | nil => simp [List.lookup_cons, beq_false_of_ne hne]
  | cons p ps ih =>
    obtain ⟨k1, v1⟩ := p
    rw [List.cons_append, List.lookup_cons, List.lookup_cons]
    cases hbeq : (k' == k1) with
    | true => rfl
    | false => exact ih

theorem dictSet_lookup_self (d : List (String × ℚ)) (k : String) (v : ℚ) :
    (dictSet d k v).lookup k = some v := by
  unfold dictSet
  split
  case isTrue h => rw [lookup_map_replace, if_pos h]
  case isFalse h =>
    exact lookup_append_single_self d k v (Option.not_isSome_iff_eq_none.mp h)

theorem dictSet_lookup_ne (d : List (String × ℚ)) (k k' : String) (v : ℚ)
    (hne : k' ≠ k) : (dictSet d k v).lookup k' = d.lookup k' := by
  unfold dictSet
  split
  · exact lookup_map_replace_ne d k k' v hne
  · exact lookup_append_single_ne d k k' v hne

theorem dictSet_mem {d : List (String × ℚ)} {k : String} {v : ℚ} {p : String × ℚ}
    (hp : p ∈ dictSet d k v) : p ∈ d ∨ p = (k, v) := by
  unfold dictSet at hp
  split at hp
  · obtain ⟨q, hq, hqe⟩ := List.mem_map.mp hp
    by_cases hqk : q.1 = k
    · right
      rw [if_pos hqk] at hqe
      exact hqe.symm
    · left
      rw [if_neg hqk] at hqe
      exact hqe ▸ hq
  · rcases List.mem_append.mp hp with h | h
    · exact Or.inl h
    · exact Or.inr (by simpa using h)

theorem dictSet_keys_nodup {d : List (String × ℚ)} (k : String) (v : ℚ)
    (hn : (d.map Prod.fst).Nodup) : ((dictSet d k v).map Prod.fst).Nodup := by
  unfold dictSet
  split
  case isTrue h =>
    have he : ((d.map (fun p => if p.1 = k then (k, v) else p)).map Prod.fst)
        = d.map Prod.fst := by
      rw [List.map_map]
      exact List.map_congr_left fun p _ => by
        by_cases hpk : p.1 = k
        · simp [hpk]
        · simp [hpk]
    rw [he]
    exact hn
  case isFalse h =>
    have hk : k ∉ d.map Prod.fst :=
      lookup_eq_none_keys.mp (Option.not_isSome_iff_eq_none.mp h)
    simp only [List.map_append, List.map_cons, List.map_nil]
    rw [List.nodup_append]
    exact ⟨hn, List.nodup_singleton k, by simpa [List.disjoint_singleton] using hk⟩

/-! ### Preference-update lemmas -/

theorem upp_nil (prefs : List (String × ℚ)) (ft : FeedbackType) :
    update_user_preferences_prefs prefs ft [] = prefs := rfl

theorem upp_cons (prefs : List (String × ℚ)) (ft : FeedbackType)
    (p : String × ℚ) (rest : List (String × ℚ)) :
    update_user_preferences_prefs prefs ft (p :: rest)
      = update_user_preferences_prefs (prefStep prefs ft p) ft rest := rfl

theorem prefStep_lookup_ne (prefs : List (String × ℚ)) (ft : FeedbackType)
    (sw : String × ℚ) {k : String} (hk : userSkillKey sw.1 ≠ k) :
    (prefStep prefs ft sw).lookup k = prefs.lookup k :=
  dictSet_lookup_ne _ _ _ _ (Ne.symm hk)

/-- Keys not touched by any entry of `skill_weights` keep their lookup. -/
theorem upp_lookup_frame (prefs : List (String × ℚ)) (ft : FeedbackType)
    (sws : List (String × ℚ)) (k : String)
    (hk : ∀ p ∈ sws, userSkillKey p.1 ≠ k) :
    (update_user_preferences_prefs prefs ft sws).lookup k = prefs.lookup k := by
  induction sws generalizing prefs with
  | nil => rfl
  | cons p rest ih =>
    rw [upp_cons, ih _ fun q hq => hk q (List.mem_cons_of_mem _ hq)]
    exact prefStep_lookup_ne prefs ft p (hk p (List.mem_cons_self _ _))

/-- Each entry of `skill_weights` (under duplicate-free normalized keys)
is written exactly the clamped, regularized learning-rate update of its
prior weight. -/
theorem upp_lookup_touched (prefs : List (String × ℚ)) (ft : FeedbackType)
    (sws : List (String × ℚ))
    (hnd : (sws.map (fun p => userSkillKey p.1)).Nodup)
    {k : String} {w : ℚ} (hm : (k, w) ∈ sws) :
    (update_user_preferences_prefs prefs ft sws).lookup (userSkillKey k)
      = some (prefNewWeight ((prefs.lookup (userSkillKey k)).getD 0) ft w) := by
  induction sws generalizing prefs with
  | nil => simp at hm
  | cons p rest ih =>
    simp only [List.map_cons, List.nodup_cons] at hnd
    rcases List.mem_cons.mp hm with he | hm2
    · subst he
      have hk : ∀ q ∈ rest, userSkillKey q.1 ≠ userSkillKey k := by
        intro q hq he2
        exact hnd.1 (he2 ▸ List.mem_map.mpr ⟨q, hq, rfl⟩)
      rw [upp_cons, upp_lookup_frame _ _ _ _ hk]
      exact dictSet_lookup_self prefs (userSkillKey k) _
    · have hne : userSkillKey p.1 ≠ userSkillKey k := by
        intro he2
        exact hnd.1 (he2 ▸ List.mem_map.mpr ⟨(k, w), hm2, rfl⟩)
      rw [upp_cons, ih _ hnd.2 hm2, prefStep_lookup_ne prefs ft p hne]

theorem clamp01_nonneg (x : ℚ) : 0 ≤ clamp01 x := le_max_left 0 _

theorem clamp01_le_one (x : ℚ) : clamp01 x ≤ 1 :=
  max_le (by norm_num) (min_le_left 1 x)

theorem prefNewWeight_mem_unit (current : ℚ) (ft : FeedbackType) (w : ℚ) :
    0 ≤ prefNewWeight current ft w ∧ prefNewWeight current ft w ≤ 1 :=
  ⟨clamp01_nonneg _, clamp01_le_one _⟩

/-- Every value of the updated mapping is either an untouched old value
or a freshly clamped one. -/
theorem upp_values (prefs : List (String × ℚ)) (ft : FeedbackType)
    (sws : List (String × ℚ)) {p : String × ℚ}
    (hp : p ∈ update_user_preferences_prefs prefs ft sws) :
    p ∈ prefs ∨ (0 ≤ p.2 ∧ p.2 ≤ 1) := by
  induction sws generalizing prefs with
  | nil => exact Or.inl hp
  | cons q rest ih =>
    rw [upp_cons] at hp
    rcases ih _ hp with hstep | hb
    · rcases dictSet_mem hstep with hold | hnew
      · exact Or.inl hold
      · exact Or.inr (hnew ▸ prefNewWeight_mem_unit _ ft q.2)
    · exact Or.inr hb

/-! ### `buildSkillWeights` lemmas -/

theorem bw_foldl_lookup (sk : List String) (w : ℚ) (d : List (String × ℚ)) (k : String) :
    (sk.foldl (fun d skill => dictSet d (prefSkillKey skill) w) d).lookup k
      = if k ∈ sk.map prefSkillKey then some w else d.lookup k := by
  induction sk generalizing d with
  | nil => simp
  | cons s rest ih =>
    rw [List.foldl_cons, ih]
    by_cases hmem : k ∈ rest.map prefSkillKey
    · simp [hmem]
    · by_cases hks : k = prefSkillKey s
      · subst hks
        simp [hmem, dictSet_lookup_self]
      · simp [hmem, hks, dictSet_lookup_ne _ _ _ _ hks]

theorem bw_lookup (sk : List String) (k : String) :
    (buildSkillWeights sk).lookup k
      = if k ∈ sk.map prefSkillKey then some (1 / (sk.length : ℚ)) else none := by
  unfold buildSkillWeights
  rw [bw_foldl_lookup]
  rfl

theorem bw_foldl_mem (sk : List String) (w : ℚ) (d : List (String × ℚ))
    {p : String × ℚ} (hp : p ∈ sk.foldl (fun d skill => dictSet d (prefSkillKey skill) w) d) :
    p ∈ d ∨ ∃ s ∈ sk, p = (prefSkillKey s, w) := by
  induction sk generalizing d with
  | nil => exact Or.inl hp
  | cons s rest ih =>
    rw [List.foldl_cons] at hp
    rcases ih _ hp with hd | ⟨s2, hs2, he⟩
    · rcases dictSet_mem hd with hold | hnew
      · exact Or.inl hold
      · exact Or.inr ⟨s, List.mem_cons_self _ _, hnew⟩
    · exact Or.inr ⟨s2, List.mem_cons_of_mem _ hs2, he⟩

theorem bw_mem (sk : List String) {p : String × ℚ} (hp : p ∈ buildSkillWeights sk) :
    (∃ s ∈ sk, p.1 = prefSkillKey s) ∧ p.2 = 1 / (sk.length : ℚ) := by
  rcases bw_foldl_mem sk _ [] hp with hnil | ⟨s, hs, he⟩
  · simp at hnil
  · exact ⟨⟨s, hs, by rw [he]⟩, by rw [he]⟩

theorem bw_foldl_keys_nodup (sk : List String) (w : ℚ) (d : List (String × ℚ))
    (hn : (d.map Prod.fst).Nodup) :
    ((sk.foldl (fun d skill => dictSet d (prefSkillKey skill) w) d).map Prod.fst).Nodup := by
  induction sk generalizing d with
  | nil => exact hn
  | cons s rest ih =>
    rw [List.foldl_cons]
    exact ih _ (dictSet_keys_nodup _ _ hn)

theorem bw_keys_nodup (sk : List String) :
    ((buildSkillWeights sk).map Prod.fst).Nodup :=
  bw_foldl_keys_nodup sk _ [] (by simp)

/-- The keys of `buildSkillWeights` are already normalized, so the
re-normalization in `update_user_preferences` fixes them. -/
theorem bw_keys_normalized (sk : List String) :
    ((buildSkillWeights sk).map (fun p => userSkillKey p.1)).Nodup := by
  have he : ((buildSkillWeights sk).map (fun p => userSkillKey p.1))
      = (buildSkillWeights sk).map Prod.fst := by
    exact List.map_congr_left fun p hp => by
      obtain ⟨⟨s, _, hs⟩, _⟩ := bw_mem sk hp
      rw [hs, userSkillKey_eq_prefSkillKey, prefSkillKey_idem]
  rw [he]
  exact bw_keys_nodup sk

/-! ### `maxValues` lemmas -/

theorem foldl_max_init_le (l : List (String × ℚ)) (a : ℚ) :
    a ≤ l.foldl (fun acc q => max acc q.2) a := by
  induction l generalizing a with
  | nil => exact le_refl a
  | cons q rest ih =>
    rw [List.foldl_cons]
    exact le_trans (le_max_left a q.2) (ih _)

theorem foldl_max_mem_le (l : List (String × ℚ)) (a : ℚ)
    {p : String × ℚ} (hp : p ∈ l) :
    p.2 ≤ l.foldl (fun acc q => max acc q.2) a := by
  induction l generalizing a with
  | nil => simp at hp
  | cons q rest ih =>
    rw [List.foldl_cons]
    rcases List.mem_cons.mp hp with he | hm
    · exact le_trans (he ▸ le_max_right a q.2) (foldl_max_init_le rest _)
    · exact ih _ hm

theorem le_maxValues {m : List (String × ℚ)} {p : String × ℚ} (hp : p ∈ m) :
    p.2 ≤ maxValues m := by
  cases m with
  | nil => simp at hp
  | cons q rest =>
    rcases List.mem_cons.mp hp with he | hm
    · exact he ▸ foldl_max_init_le rest q.2
    · exact foldl_max_mem_le rest q.2 hm

theorem maxValues_pos {m : List (String × ℚ)} {p : String × ℚ}
    (hp : p ∈ m) (hpos : 0 < p.2) : 0 < maxValues m :=
  lt_of_lt_of_le hpos (le_maxValues hp)

theorem foldl_max_map_div (l : List (String × ℚ)) (a c : ℚ) (hc : 0 < c) :
    (l.map (fun p => (p.1, p.2 / c))).foldl (fun acc q => max acc q.2) (a / c)
      = (l.foldl (fun acc q => max acc q.2) a) / c := by
  induction l generalizing a with
  | nil => rfl
  | cons q rest ih =>
    simp only [List.map_cons, List.foldl_cons]
    rw [max_div_div_right (le_of_lt hc), ih]

theorem maxValues_map_div (m : List (String × ℚ)) (c : ℚ) (hc : 0 < c)
    (hm : m ≠ []) :
    maxValues (m.map (fun p => (p.1, p.2 / c))) = maxValues m / c := by
  cases m with
  | nil => exact absurd rfl hm
  | cons q rest =>
    simp only [List.map_cons, maxValues]
    exact foldl_max_map_div rest q.2 c hc

/-! ### Sorting lemmas -/

theorem mem_sortByScoreDesc {rows : List (String × ℚ)} {p : String × ℚ} :
    p ∈ sortByScoreDesc rows ↔ p ∈ rows :=
  (List.perm_insertionSort scoreLE rows).mem_iff

theorem length_sortByScoreDesc (rows : List (String × ℚ)) :
    (sortByScoreDesc rows).length = rows.length :=
  (List.perm_insertionSort scoreLE rows).length_eq

theorem take_sortByScoreDesc_subset {rows : List (String × ℚ)} {p : String × ℚ}
    {n : Nat} (hp : p ∈ (sortByScoreDesc rows).take n) : p ∈ rows :=
  mem_sortByScoreDesc.mp ((List.take_sublist n _).mem hp)

/-- Under duplicate-free keys and full retention (at most `n` rows),
truncation after sorting preserves lookups. -/
theorem lookup_take_sort {rows : List (String × ℚ)} {n : Nat}
    (hn : (rows.map Prod.fst).Nodup) (hlen : rows.length ≤ n) (k : String) :
    ((sortByScoreDesc rows).take n).lookup k = rows.lookup k := by
  rw [List.take_of_length_le (by rw [length_sortByScoreDesc]; exact hlen)]
  exact (lookup_eq_of_perm hn (List.perm_insertionSort scoreLE rows).symm k).symm

/-- A key absent from the rows is absent from any sorted truncation. -/
theorem lookup_take_sort_none {rows : List (String × ℚ)} {n : Nat} {k : String}
    (hk : k ∉ rows.map Prod.fst) :
    ((sortByScoreDesc rows).take n).lookup k = none := by
  apply lookup_eq_none_keys.mpr
  intro hmem
  obtain ⟨p, hp, hpk⟩ := List.mem_map.mp hmem
  exact hk (List.mem_map.mpr ⟨p, take_sortByScoreDesc_subset hp, hpk⟩)

/-! ### State-preservation lemmas for the feedback path -/

theorem mergeFeedbackEdge_users (st : GraphState) (fb : UserFeedback) :
    (mergeFeedbackEdge st fb).users = st.users := by
  unfold mergeFeedbackEdge
  split
  · split <;> rfl
  · rfl

theorem mergeFeedbackEdge_vacancies (st : GraphState) (fb : UserFeedback) :
    (mergeFeedbackEdge st fb).vacancies = st.vacancies := by
  unfold mergeFeedbackEdge
  split
  · split <;> rfl
  · rfl

theorem mergeFeedbackEdge_connected (st : GraphState) (fb : UserFeedback) :
    (mergeFeedbackEdge st fb).connected = st.connected := by
  unfold mergeFeedbackEdge
  split
  · split <;> rfl
  · rfl

theorem findUser_eq_of_users_eq {st st' : GraphState} (h : st'.users = st.users)
    (uid : String) : findUser st' uid = findUser st uid := by
  unfold findUser
  rw [h]

theorem findVacancy_eq_of_vacancies_eq {st st' : GraphState}
    (h : st'.vacancies = st.vacancies) (vid : String) :
    findVacancy st' vid = findVacancy st vid := by
  unfold findVacancy
  rw [h]

theorem findUser_setUserPrefs (st : GraphState) (uid : String)
    (prefs : List (String × ℚ)) :
    findUser (setUserPrefs st uid prefs) uid
      = (findUser st uid).map (fun u => ⟨u.id, u.skills, prefs, u.embedding⟩) := by
  unfold findUser setUserPrefs
  simp only
  induction st.users with
  | nil => rfl
  | cons u rest ih =>
    cases hu : (u.id == uid) with
    | true =>
      simp only [List.map_cons, if_pos hu, List.find?_cons]
      simp [hu]
    | false =>
      simp only [List.map_cons,
        if_neg (by simp [hu] : ¬(u.id == uid) = true), List.find?_cons]
      rw [hu]
      exact ih

/-- `prefsIn01 st`: every stored preference weight lies in `[0, 1]`. -/
def prefsIn01 (st : GraphState) : Prop :=
  ∀ u ∈ st.users, ∀ p ∈ u.preferences, 0 ≤ p.2 ∧ p.2 ≤ 1

theorem prefsIn01_setUserPrefs {st : GraphState} {uid : String}
    {prefs : List (String × ℚ)} (hst : prefsIn01 st)
    (hp : ∀ p ∈ prefs, 0 ≤ p.2 ∧ p.2 ≤ 1) :
    prefsIn01 (setUserPrefs st uid prefs) := by
  intro u hu
  simp only [setUserPrefs] at hu
  obtain ⟨u0, hu0, he⟩ := List.mem_map.mp hu
  by_cases h0 : u0.id == uid
  · rw [if_pos h0] at he
    subst he
    exact hp
  · rw [if_neg h0] at he
    subst he
    exact hst u0 hu0

theorem prefsIn01_update_user_preferences {st : GraphState} (uid : String)
    (ft : FeedbackType) (sws : List (String × ℚ)) (hst : prefsIn01 st) :
    prefsIn01 (update_user_preferences st uid ft sws) := by
  unfold update_user_preferences
  split
  · cases hfu : findUser st uid with
    | none => exact hst
    | some u =>
      apply prefsIn01_setUserPrefs hst
      intro p hp
      rcases upp_values u.preferences ft sws hp with hold | hb
      · exact hst u (List.mem_of_find?_eq_some hfu) p hold
      · exact hb
  · exact hst

theorem prefsIn01_upff {st : GraphState} (fb : UserFeedback)
    (hst : prefsIn01 st) : prefsIn01 (update_user_preferences_from_feedback st fb) := by
  unfold update_user_preferences_from_feedback
  split
  · split
    · exact hst
    · split
      · exact hst
      · exact prefsIn01_update_user_preferences _ _ _ hst
  · exact hst

theorem record_feedback_fst (st : GraphState) (fb : UserFeedback) :
    (record_feedback st fb).1 = true := rfl

theorem record_feedback_snd (st : GraphState) (fb : UserFeedback) :
    (record_feedback st fb).2
      = (if fb.feedback_type = FeedbackType.LIKE ∨ fb.feedback_type = FeedbackType.DISLIKE
         then update_user_preferences_from_feedback
                (if st.connected then mergeFeedbackEdge st fb else st) fb
         else (if st.connected then mergeFeedbackEdge st fb else st)) := rfl

theorem prefsIn01_record_feedback {st : GraphState} (fb : UserFeedback)
    (hst : prefsIn01 st) : prefsIn01 (record_feedback st fb).2 := by
  have h1 : prefsIn01 (if st.connected then mergeFeedbackEdge st fb else st) := by
    split
    · intro u hu
      rw [mergeFeedbackEdge_users] at hu
      exact hst u hu
    · exact hst
  rw [record_feedback_snd]
  split
  · exact prefsIn01_upff fb h1
  · exact h1

/-! ### Combiner lemmas -/

theorem mem_combine {resolve : String → Option VacancyRec}
    {cs gs ss : List (String × ℚ)} {so : List String} {lim : Nat}
    {r : RecommendationScore}
    (hr : r ∈ combine_recommendations resolve cs gs ss so lim) :
    r ∈ candidateRecs resolve cs gs ss so :=
  (List.perm_insertionSort recLE _).mem_iff.mp ((List.take_sublist _ _).mem hr)

theorem candidateRecs_total {resolve : String → Option VacancyRec}
    {cs gs ss : List (String × ℚ)} {so : List String} {r : RecommendationScore}
    (hr : r ∈ candidateRecs resolve cs gs ss so) :
    r.total_score = total_score_formula r.content_score r.graph_score r.semantic_score := by
  obtain ⟨vid, _, hf⟩ := List.mem_filterMap.mp hr
  cases hres : resolve vid with
  | none => simp [hres] at hf
  | some vac =>
    simp only [hres] at hf
    obtain rfl := Option.some.inj hf
    rfl

theorem candidateRecs_nil (resolve : String → Option VacancyRec)
    (cs gs ss : List (String × ℚ)) :
    candidateRecs resolve cs gs ss [] = [] := rfl

theorem combine_nil_setOrder (resolve : String → Option VacancyRec)
    (cs gs ss : List (String × ℚ)) (lim : Nat) :
    combine_recommendations resolve cs gs ss [] lim = [] := by
  simp [combine_recommendations, candidateRecs]

/-! ### Equation lemmas for the feedback path -/

theorem upff_eq {st : GraphState} {fb : UserFeedback} {v : VacancyRec}
    (hconn : st.connected = true) (hfv : findVacancy st fb.vacancy_id = some v)
    (hsk : v.skills.isEmpty = false) :
    update_user_preferences_from_feedback st fb
      = update_user_preferences st fb.user_id fb.feedback_type
          (buildSkillWeights v.skills) := by
  unfold update_user_preferences_from_feedback
  simp [hconn, hfv, hsk]

theorem update_user_preferences_eq {st : GraphState} {uid : String}
    (ft : FeedbackType) (sws : List (String × ℚ)) {u : UserRec}
    (hconn : st.connected = true) (hfu : findUser st uid = some u) :
    update_user_preferences st uid ft sws
      = setUserPrefs st uid (update_user_preferences_prefs u.preferences ft sws) := by
  unfold update_user_preferences
  simp [hconn, hfu]

/-! ## Claim theorems -/

/-! ### C1 — `record_feedback` result and error behavior -/

/-- A store whose driver could not be created: every query silently
returns the empty list. -/
def stDisconnected : GraphState := ⟨[], [], [], [], false⟩

/-- Claim C1, counterexample: with the persistent store unreachable,
`record_feedback` still returns `True` (the Neo4j client swallows the
failure and returns an empty result, so the `except` branch returning
`False` never runs), contradicting the claim that the success boolean is
`False` when the store cannot be reached. -/
theorem record_feedback_disconnected_true :
    stDisconnected.connected = false ∧
    (record_feedback stDisconnected ⟨"u1", "v1", FeedbackType.LIKE⟩).1 = true :=
  ⟨rfl, rfl⟩

/-- Claim C1, amended: `record_feedback` never throws past the component
boundary and returns `True` on every input, reachable store or not
(store failures are swallowed inside the client as empty results); on a
LIKE or DISLIKE with a reachable store, an existing user and an existing
vacancy with a non-empty skill list, it triggers the §4.5 preference
update on the stored user record. -/
theorem record_feedback_true_and_triggers_update :
    ∀ (st : GraphState) (fb : UserFeedback),
      (record_feedback st fb).1 = true ∧
      (∀ (u : UserRec) (v : VacancyRec), st.connected = true →
        findUser st fb.user_id = some u →
        findVacancy st fb.vacancy_id = some v →
        v.skills.isEmpty = false →
        (fb.feedback_type = FeedbackType.LIKE ∨ fb.feedback_type = FeedbackType.DISLIKE) →
        (findUser (record_feedback st fb).2 fb.user_id).map (fun u2 => u2.preferences)
          = some (update_user_preferences_prefs u.preferences fb.feedback_type
                    (buildSkillWeights v.skills))) := by
  intro st fb
  refine ⟨rfl, ?_⟩
  intro u v hconn hfu hfv hsk hft
  rw [record_feedback_snd, if_pos hft, if_pos hconn]
  have hconn1 : (mergeFeedbackEdge st fb).connected = true := by
    rw [mergeFeedbackEdge_connected]
    exact hconn
  have hfv1 : findVacancy (mergeFeedbackEdge st fb) fb.vacancy_id = some v := by
    rw [findVacancy_eq_of_vacancies_eq (mergeFeedbackEdge_vacancies st fb)]
    exact hfv
  have hfu1 : findUser (mergeFeedbackEdge st fb) fb.user_id = some u := by
    rw [findUser_eq_of_users_eq (mergeFeedbackEdge_users st fb)]
    exact hfu
  rw [upff_eq hconn1 hfv1 hsk,
    update_user_preferences_eq fb.feedback_type _ hconn1 hfu1,
    findUser_setUserPrefs, hfu1]
  rfl

/-- Claim C1 witness: a concrete reachable store where a LIKE on a
vacancy with skills `["Python"]` flips the success flag to `True` and
rewrites the stored preference mapping per the §4.5 rule. -/
theorem record_feedback_trigger_witness :
    (record_feedback ⟨[⟨"u1", ["Python"], [], none⟩], [⟨"v1", ["Python"], none⟩], [], [], true⟩
        ⟨"u1", "v1", FeedbackType.LIKE⟩).1 = true ∧
    (findUser (record_feedback ⟨[⟨"u1", ["Python"], [], none⟩], [⟨"v1", ["Python"], none⟩], [], [], true⟩
        ⟨"u1", "v1", FeedbackType.LIKE⟩).2 "u1").map (fun u2 => u2.preferences)
      = some (update_user_preferences_prefs [] FeedbackType.LIKE (buildSkillWeights ["Python"])) := by
  refine ⟨(record_feedback_true_and_triggers_update _ _).1, ?_⟩
  exact (record_feedback_true_and_triggers_update
      ⟨[⟨"u1", ["Python"], [], none⟩], [⟨"v1", ["Python"], none⟩], [], [], true⟩
      ⟨"u1", "v1", FeedbackType.LIKE⟩).2
    ⟨"u1", ["Python"], [], none⟩ ⟨"v1", ["Python"], none⟩
    rfl (by decide) (by decide) (by decide) (Or.inl rfl)

/-! ### C2 — ranking order and length -/

def stTieBreak : GraphState :=
  ⟨[⟨"u", ["s"], [], none⟩],
   [⟨"b", ["s"], none⟩, ⟨"a", ["s"], none⟩],
   [], [], true⟩

def simZero : List ℚ → List ℚ → ℚ := fun _ _ => 0

/-- Claim C2, counterexample: with two candidates of equal total score
and set-iteration order `["b", "a"]` (Python set order is
hash-seed-dependent, so this order occurs in real runs), the ranked list
keeps the order `["b", "a"]` — the ids are NOT in ascending order even
though the totals tie, because the stable sort has no id tie-break. -/
theorem rank_tie_not_id_ascending :
    ((get_recommendations stTieBreak simZero "u" ["b", "a"] 10).map
        (fun r => r.vacancy.id) = ["b", "a"]) ∧
    ((get_recommendations stTieBreak simZero "u" ["b", "a"] 10).map
        (fun r => r.total_score) = [3/10, 3/10]) ∧
    "a".data < "b".data := by
  have hab : (("a" : String) == "b") = false := by decide
  refine ⟨?_, ?_, by decide⟩ <;>
    norm_num [hab, get_recommendations, get_content_recommendations,
      get_graph_recommendations, get_semantic_recommendations,
      combine_recommendations, candidateRecs, get_vacancy_by_id, stTieBreak,
      simZero, findUser, userExists, findVacancy, contentRows, graphRows,
      sortByScoreDesc, List.insertionSort, List.orderedInsert, scoreLE, recLE,
      similarUsersCount, similarUsers, likedBy, sharesSkillWith, ratedByTarget,
      List.find?, List.filter, List.lookup, maxValues, normalizeBy,
      total_score_formula, settings]

/-- Claim C2, amended: for every store state, similarity function, user,
set-iteration order and limit, the ranked list is sorted descending by
total score and has length at most `limit`; the relative order of ties
is the (unspecified) set-iteration order, not listing-id ascending. -/
theorem rank_sorted_and_bounded :
    ∀ (st : GraphState) (sim : List ℚ → List ℚ → ℚ) (uid : String)
      (setOrder : List String) (limit : Nat),
      List.Sorted (fun a b : RecommendationScore => b.total_score ≤ a.total_score)
        (get_recommendations st sim uid setOrder limit) ∧
      (get_recommendations st sim uid setOrder limit).length ≤ limit := by
  intro st sim uid setOrder limit
  constructor
  · exact List.Pairwise.sublist (List.take_sublist _ _)
      (List.sorted_insertionSort recLE _)
  · exact List.length_take_le _ _

/-! ### C3 — skill-key normalization consistency -/

/-- Claim C3, counterexample: the ingestion-facing vacancy save path
additionally strips dots, so the key it derives for `"Node.js"` differs
from the key the preference updater derives. -/
theorem skill_key_mismatch_on_dot :
    vacancySkillKey "Node.js" = "nodejs" ∧
    prefSkillKey "Node.js" = "node.js" ∧
    vacancySkillKey "Node.js" ≠ prefSkillKey "Node.js" := by
  refine ⟨?_, ?_, ?_⟩ <;> decide

/-- Claim C3, amended: the preference updater, the user save path and
the spec's `normalizeSkillKey` (case-fold, space→underscore) all compute
the same key for every string; the vacancy save path agrees with them
exactly on strings containing no `'.'` (it additionally removes dots). -/
theorem skill_key_agreement :
    (∀ s : String, userSkillKey s = prefSkillKey s ∧
      specNormalizeSkillKey s = prefSkillKey s) ∧
    (∀ s : String, '.' ∉ s.data → vacancySkillKey s = prefSkillKey s) := by
  constructor
  · exact fun s => ⟨rfl, rfl⟩
  · intro s hs
    show dropDots (prefSkillKey s) = prefSkillKey s
    apply String.ext
    show (prefSkillKey s).data.filter (fun c => c ≠ '.') = (prefSkillKey s).data
    apply List.filter_eq_self.mpr
    intro c hc
    rw [prefSkillKey_data] at hc
    obtain ⟨c0, hc0, rfl⟩ := List.mem_map.mp hc
    have : c0 ≠ '.' := fun he => hs (he ▸ hc0)
    simpa using prefKeyChar_ne_dot this

/-- Claim C3 witness: the amended agreement applied at `"A b"` (no dot):
all paths derive `"a_b"`. -/
theorem skill_key_agreement_witness :
    vacancySkillKey "A b" = prefSkillKey "A b" ∧ prefSkillKey "A b" = "a_b" :=
  ⟨skill_key_agreement.2 "A b" (by decide), by decide⟩

/-! ### C9 — normalization idempotence -/

/-- Claim C9, confirmed: for every non-empty score mapping with at least
one positive value, normalizing twice equals normalizing once (dividing
by the maximum makes the new maximum exactly 1, and dividing by 1 is the
identity). -/
theorem normalize_idempotent :
    ∀ m : List (String × ℚ), m ≠ [] → (∃ p ∈ m, 0 < p.2) →
      normalizeScores (normalizeScores m) = normalizeScores m := by
  intro m hne hpos
  obtain ⟨p, hp, hppos⟩ := hpos
  have hmx : 0 < maxValues m := maxValues_pos hp hppos
  have hne2 : m.map (fun p => (p.1, p.2 / maxValues m)) ≠ [] := by
    intro h
    exact hne (List.map_eq_nil_iff.mp h)
  have h1 : normalizeScores m = m.map (fun p => (p.1, p.2 / maxValues m)) := by
    unfold normalizeScores
    rw [if_neg (by simp [hne]), if_pos hmx]
  rw [h1]
  have hmx2 : maxValues (m.map (fun p => (p.1, p.2 / maxValues m))) = 1 := by
    rw [maxValues_map_div m _ hmx hne, div_self (ne_of_gt hmx)]
  unfold normalizeScores
  rw [if_neg (by simp [hne2]), hmx2, if_pos one_pos, List.map_map]
  exact List.map_congr_left fun q _ => by simp

/-- Claim C9 witness: idempotence applied at the concrete mapping
`{"a": 2}`. -/
theorem normalize_idempotent_witness :
    normalizeScores (normalizeScores [("a", (2:ℚ))]) = normalizeScores [("a", (2:ℚ))] :=
  normalize_idempotent [("a", 2)] (by decide) ⟨("a", 2), by decide, by decide⟩

/-! ### C4 — total-score invariant and bound -/

/-- Claim C4, confirmed: every ranked candidate's total equals the
weighted sum of its stored component scores; the configured weights sum
to 1; and for weights as configured with every component in `[0, 1]`,
the weighted sum lies in `[0, 1]`. -/
theorem total_score_weighted_sum_and_bounded :
    (settings.content_weight + settings.graph_weight + settings.semantic_weight = 1) ∧
    (∀ (resolve : String → Option VacancyRec) (cs gs ss : List (String × ℚ))
        (so : List String) (lim : Nat) (r : RecommendationScore),
      r ∈ combine_recommendations resolve cs gs ss so lim →
      r.total_score = settings.content_weight * r.content_score
        + settings.graph_weight * r.graph_score
        + settings.semantic_weight * r.semantic_score) ∧
    (∀ c g s : ℚ, 0 ≤ c → c ≤ 1 → 0 ≤ g → g ≤ 1 → 0 ≤ s → s ≤ 1 →
      0 ≤ total_score_formula c g s ∧ total_score_formula c g s ≤ 1) := by
  refine ⟨by norm_num [settings], ?_, ?_⟩
  · intro resolve cs gs ss so lim r hr
    exact candidateRecs_total (mem_combine hr)
  · intro c g s hc0 hc1 hg0 hg1 hs0 hs1
    unfold total_score_formula settings
    constructor <;> simp only <;> nlinarith

/-- Claim C4 witness: the weighted-sum equality applied across a
concrete one-candidate ranking, and the bound applied at components
`(1/2, 1/2, 1/2)`. -/
theorem total_score_weighted_sum_witness :
    ((combine_recommendations (fun vid => some ⟨vid, [], none⟩)
        [("a", 1)] [] [] ["a"] 1).map (fun r => r.total_score)
      = (combine_recommendations (fun vid => some ⟨vid, [], none⟩)
          [("a", 1)] [] [] ["a"] 1).map
          (fun r => settings.content_weight * r.content_score
            + settings.graph_weight * r.graph_score
            + settings.semantic_weight * r.semantic_score)) ∧
    (0 ≤ total_score_formula (1/2) (1/2) (1/2) ∧
      total_score_formula (1/2) (1/2) (1/2) ≤ 1) := by
  constructor
  · exact List.map_congr_left fun r hr =>
      total_score_weighted_sum_and_bounded.2.1 _ _ _ _ _ _ r hr
  · exact total_score_weighted_sum_and_bounded.2.2 (1/2) (1/2) (1/2)
      (by norm_num) (by norm_num) (by norm_num) (by norm_num)
      (by norm_num) (by norm_num)

/-! ### C10 — unknown user yields the empty list -/

/-- Claim C10, confirmed: when no stored user record matches the id, all
three signal mappings are empty, so (for any enumeration of their union,
which is then empty) `get_recommendations` returns the empty list rather
than raising. -/
theorem get_recommendations_unknown_user_empty :
    ∀ (st : GraphState) (sim : List ℚ → List ℚ → ℚ) (uid : String)
      (setOrder : List String) (lim : Nat),
      (∀ u ∈ st.users, u.id ≠ uid) →
      (∀ vid ∈ setOrder,
        vid ∈ (get_content_recommendations st uid).map Prod.fst ∨
        vid ∈ (get_graph_recommendations st uid).map Prod.fst ∨
        vid ∈ (get_semantic_recommendations st sim uid).map Prod.fst) →
      get_recommendations st sim uid setOrder lim = [] := by
  intro st sim uid so lim hu hso
  have hfu : findUser st uid = none := by
    unfold findUser
    apply List.find?_eq_none.mpr
    intro u humem
    simpa using hu u humem
  have hc : get_content_recommendations st uid = [] := by
    unfold get_content_recommendations
    rw [hfu]
    split <;> rfl
  have hg : get_graph_recommendations st uid = [] := by
    have huex : userExists st uid = false := by
      unfold userExists
      rw [hfu]
      rfl
    unfold get_graph_recommendations
    split
    · rw [huex]
      simp
    · rfl
  have hs : get_semantic_recommendations st sim uid = [] := by
    unfold get_semantic_recommendations
    rw [hfu]
    split <;> rfl
  have hso2 : so = [] := by
    apply List.eq_nil_iff_forall_not_mem.mpr
    intro vid hvid
    rcases hso vid hvid with h | h | h <;> simp [hc, hg, hs] at h
  unfold get_recommendations
  rw [hso2]
  exact combine_nil_setOrder _ _ _ _ _

/-- Claim C10 witness: a store holding only `"alice"` queried for
`"bob"` yields the empty recommendation list. -/
theorem get_recommendations_unknown_user_witness :
    get_recommendations ⟨[⟨"alice", [], [], none⟩], [], [], [], true⟩
      (fun _ _ => 0) "bob" [] 5 = [] :=
  get_recommendations_unknown_user_empty _ _ _ _ _ (by decide)
    (fun vid hvid => absurd hvid (List.not_mem_nil vid))

/-! ### C6 — graph scorer: exclusion of rated listings, count values -/

theorem graphRows_mem {st : GraphState} {uid : String} {p : String × ℚ}
    (hp : p ∈ graphRows st uid) :
    ratedByTarget st uid p.1 = false ∧ p.2 = (similarUsersCount st uid p.1 : ℚ) := by
  unfold graphRows at hp
  obtain ⟨v, hv, he⟩ := List.mem_map.mp hp
  obtain ⟨hvmem, hcond⟩ := List.mem_filter.mp hv
  simp only [Bool.and_eq_true, Bool.not_eq_true'] at hcond
  obtain ⟨hrated, _⟩ := hcond
  refine ⟨?_, ?_⟩
  · rw [← he]
    exact hrated
  · rw [← he]

/-- Claim C6, confirmed: a listing already rated LIKE or DISLIKE by the
target user never appears in the graph-scorer output, regardless of the
rest of the state; and every listing that does appear maps to the number
of distinct skill-sharing users who liked it. -/
theorem graph_excludes_rated_and_counts :
    ∀ (st : GraphState) (uid vid : String),
      (ratedByTarget st uid vid = true →
        (get_graph_recommendations st uid).lookup vid = none) ∧
      (∀ c : ℚ, (get_graph_recommendations st uid).lookup vid = some c →
        c = (similarUsersCount st uid vid : ℚ)) := by
  intro st uid vid
  constructor
  · intro hrated
    unfold get_graph_recommendations
    split
    · split
      · apply lookup_take_sort_none
        intro hmem
        obtain ⟨p, hp, hpk⟩ := List.mem_map.mp hmem
        have hfalse := (graphRows_mem hp).1
        rw [hpk, hrated] at hfalse
        cases hfalse
      · simp
    · simp
  · intro c hlookup
    unfold get_graph_recommendations at hlookup
    split at hlookup
    · split at hlookup
      · have hmem : (vid, c) ∈ graphRows st uid :=
          take_sortByScoreDesc_subset (lookup_mem hlookup)
        exact (graphRows_mem hmem).2
      · simp at hlookup
    · simp at hlookup

/-- Claim C6 witness: target user `"t"` already LIKEd `"v2"`; although
the skill-sharing user `"o"` also liked `"v2"` (one distinct sharing
liker), `"v2"` is absent from the graph-scorer output. -/
theorem graph_excludes_rated_witness :
    (get_graph_recommendations
        ⟨[⟨"t", ["s"], [], none⟩, ⟨"o", ["s"], [], none⟩],
         [⟨"v1", [], none⟩, ⟨"v2", [], none⟩],
         [("t", "s"), ("o", "s")],
         [("o", "v1", FeedbackType.LIKE), ("o", "v2", FeedbackType.LIKE),
          ("t", "v2", FeedbackType.LIKE)], true⟩ "t").lookup "v2" = none ∧
    similarUsersCount
        ⟨[⟨"t", ["s"], [], none⟩, ⟨"o", ["s"], [], none⟩],
         [⟨"v1", [], none⟩, ⟨"v2", [], none⟩],
         [("t", "s"), ("o", "s")],
         [("o", "v1", FeedbackType.LIKE), ("o", "v2", FeedbackType.LIKE),
          ("t", "v2", FeedbackType.LIKE)], true⟩ "t" "v2" = 1 :=
  ⟨(graph_excludes_rated_and_counts _ "t" "v2").1 (by decide), by decide⟩

/-! ### C7 — preference-update rule, zero-skill skip, clamp invariant -/

/-- Claim C7, confirmed: (i) for a LIKE/DISLIKE on a listing with skill
list `sk` and any skill `s ∈ sk`, the stored weight at the normalized
key becomes `clamp_[0,1]((current ± learningRate * (1/|sk|)) *
(1 - regularizationLambda))`; (ii) the update is skipped entirely when
the rated listing has zero skills; (iii) starting from any state whose
stored preference weights are in `[0, 1]`, any number of feedback events
keeps every stored weight in `[0, 1]`. -/
theorem preference_update_rule :
    (∀ (prefs : List (String × ℚ)) (sk : List String) (ft : FeedbackType) (s : String),
      s ∈ sk →
      (ft = FeedbackType.LIKE ∨ ft = FeedbackType.DISLIKE) →
      (update_user_preferences_prefs prefs ft (buildSkillWeights sk)).lookup (prefSkillKey s)
        = some (clamp01
            ((((prefs.lookup (prefSkillKey s)).getD 0)
                + (if ft = FeedbackType.LIKE
                   then settings.learning_rate * (1 / (sk.length : ℚ))
                   else -(settings.learning_rate * (1 / (sk.length : ℚ)))))
              * (1 - settings.regularization_lambda)))) ∧
    (∀ (st : GraphState) (fb : UserFeedback) (v : VacancyRec),
      findVacancy st fb.vacancy_id = some v → v.skills = [] →
      update_user_preferences_from_feedback st fb = st) ∧
    (∀ (st : GraphState) (fbs : List UserFeedback),
      prefsIn01 st → prefsIn01 (apply_feedbacks st fbs)) := by
  refine ⟨?_, ?_, ?_⟩
  · intro prefs sk ft s hs hft
    have hw : (buildSkillWeights sk).lookup (prefSkillKey s)
        = some (1 / (sk.length : ℚ)) := by
      rw [bw_lookup, if_pos (List.mem_map.mpr ⟨s, hs, rfl⟩)]
    have hmem := lookup_mem hw
    have htouched := upp_lookup_touched prefs ft _ (bw_keys_normalized sk) hmem
    rw [userSkillKey_eq_prefSkillKey, prefSkillKey_idem] at htouched
    rw [htouched]
    rcases hft with h | h <;> subst h <;>
      simp [prefNewWeight, sub_eq_add_neg]
  · intro st fb v hfv hskills
    unfold update_user_preferences_from_feedback
    split
    · simp [hfv, hskills]
    · rfl
  · intro st fbs hst
    induction fbs generalizing st with
    | nil => exact hst
    | cons fb rest ih => exact ih _ (prefsIn01_record_feedback fb hst)

/-- Claim C7 witness: (i) a DISLIKE on a one-skill listing from weight 0
yields `clamp01((0 - 0.1*1) * 0.99)`; (ii) the update on a zero-skill
listing is the identity on a concrete state; (iii) a concrete event
sequence preserves the `[0, 1]` bound from an empty mapping. -/
theorem preference_update_rule_witness :
    ((update_user_preferences_prefs [] FeedbackType.DISLIKE
        (buildSkillWeights ["Python"])).lookup (prefSkillKey "Python")
      = some (clamp01
          (((([] : List (String × ℚ)).lookup (prefSkillKey "Python")).getD 0
              + -(settings.learning_rate * (1 / ((["Python"] : List String).length : ℚ))))
            * (1 - settings.regularization_lambda)))) ∧
    (update_user_preferences_from_feedback
        ⟨[⟨"u", [], [], none⟩], [⟨"v", [], none⟩], [], [], true⟩ ⟨"u", "v", FeedbackType.LIKE⟩
      = ⟨[⟨"u", [], [], none⟩], [⟨"v", [], none⟩], [], [], true⟩) ∧
    prefsIn01 (apply_feedbacks ⟨[⟨"u", ["Python"], [], none⟩], [⟨"v", ["Python"], none⟩], [], [], true⟩
      [⟨"u", "v", FeedbackType.LIKE⟩, ⟨"u", "v", FeedbackType.DISLIKE⟩]) := by
  refine ⟨?_, ?_, ?_⟩
  · have h := preference_update_rule.1 [] ["Python"] FeedbackType.DISLIKE "Python"
      (by decide) (Or.inr rfl)
    rw [h]
    simp
  · exact preference_update_rule.2.1 _ ⟨"u", "v", FeedbackType.LIKE⟩ ⟨"v", [], none⟩
      (by decide) rfl
  · exact preference_update_rule.2.2 _ _ (by intro u hu p hp; simp at hu; rw [hu] at hp; simp at hp)

/-! ### C8 — frame property of the preference update -/

/-- Claim C8, confirmed: a preference update touches only the keys
derived from the rated listing's skills; any other key keeps exactly its
prior lookup, both in the in-memory mapping and in the stored user
record after the full-overwrite persist. -/
theorem preference_update_frame :
    (∀ (prefs : List (String × ℚ)) (ft : FeedbackType) (sk : List String) (k : String),
      k ∉ sk.map prefSkillKey →
      (update_user_preferences_prefs prefs ft (buildSkillWeights sk)).lookup k
        = prefs.lookup k) ∧
    (∀ (st : GraphState) (uid : String) (ft : FeedbackType) (sk : List String)
        (u : UserRec) (k : String),
      findUser st uid = some u →
      k ∉ sk.map prefSkillKey →
      (findUser (update_user_preferences st uid ft (buildSkillWeights sk)) uid).map
          (fun u2 => u2.preferences.lookup k)
        = some (u.preferences.lookup k)) := by
  have hmain : ∀ (prefs : List (String × ℚ)) (ft : FeedbackType) (sk : List String)
      (k : String), k ∉ sk.map prefSkillKey →
      (update_user_preferences_prefs prefs ft (buildSkillWeights sk)).lookup k
        = prefs.lookup k := by
    intro prefs ft sk k hk
    apply upp_lookup_frame
    intro p hp
    obtain ⟨⟨s, hs, hps⟩, _⟩ := bw_mem sk hp
    rw [hps, userSkillKey_eq_prefSkillKey, prefSkillKey_idem]
    exact fun he => hk (he ▸ List.mem_map.mpr ⟨s, hs, rfl⟩)
  refine ⟨hmain, ?_⟩
  intro st uid ft sk u k hfu hk
  by_cases hconn : st.connected = true
  · rw [update_user_preferences_eq ft _ hconn hfu, findUser_setUserPrefs, hfu]
    exact congrArg some (hmain u.preferences ft sk k hk)
  · have : update_user_preferences st uid ft (buildSkillWeights sk) = st := by
      unfold update_user_preferences
      rw [if_neg hconn]
    rw [this, hfu]
    rfl

/-- Claim C8 witness: updating from a listing with skills `["SQL"]` does
not alter the stored weight of `"docker"` for the same user. -/
theorem preference_update_frame_witness :
    (findUser (update_user_preferences
        ⟨[⟨"u", [], [("docker", 1)], none⟩], [], [], [], true⟩
        "u" FeedbackType.LIKE (buildSkillWeights ["SQL"])) "u").map
      (fun u2 => u2.preferences.lookup "docker") = some (some 1) := by
  have h := preference_update_frame.2
      ⟨[⟨"u", [], [("docker", 1)], none⟩], [], [], [], true⟩
      "u" FeedbackType.LIKE ["SQL"] ⟨"u", [], [("docker", 1)], none⟩ "docker"
      (by decide) (by decide)
  rw [h]
  rfl

/-! ### C5 — content-matcher output -/

theorem contentRows_keys (st : GraphState) (u : UserRec) :
    (contentRows st u).map Prod.fst
      = (st.vacancies.filter (fun v => v.skills.length > 0)).map (fun v => v.id) := by
  unfold contentRows
  rw [List.map_map]
  exact List.map_congr_left fun v _ => rfl

theorem contentRows_keys_nodup (st : GraphState) (u : UserRec)
    (hnd : (st.vacancies.map (fun v => v.id)).Nodup) :
    ((contentRows st u).map Prod.fst).Nodup := by
  rw [contentRows_keys]
  exact List.Nodup.sublist (List.Sublist.map _ (List.filter_sublist _)) hnd

theorem content_eq {st : GraphState} {uid : String} {u : UserRec}
    (hconn : st.connected = true) (hfu : findUser st uid = some u) :
    get_content_recommendations st uid = (sortByScoreDesc (contentRows st u)).take 100 := by
  unfold get_content_recommendations
  simp [hconn, hfu]

/-- Claim C5, amended and confirmed in that form: whenever at most 100
listings have a non-empty skill list (the Cypher query carries
`LIMIT 100`), every such listing is mapped to the fraction of its
skill-list entries present in the user's skills — which equals
`|listing_skills ∩ user_skills| / |listing_skills|` for duplicate-free
skill lists —, zero-skill listings are never mapped, and an empty user
skill set scores every mapped listing 0. -/
theorem content_scores_spec :
    ∀ (st : GraphState) (uid : String) (u : UserRec),
      st.connected = true →
      findUser st uid = some u →
      (st.vacancies.map (fun v => v.id)).Nodup →
      ((st.vacancies.filter (fun v => v.skills.length > 0)).length ≤ 100 →
        ∀ v ∈ st.vacancies, 0 < v.skills.length →
          (get_content_recommendations st uid).lookup v.id
            = some ((v.skills.countP (fun skill => decide (skill ∈ u.skills)) : ℚ)
                / (v.skills.length : ℚ))) ∧
      (∀ v ∈ st.vacancies, v.skills.length = 0 →
        (get_content_recommendations st uid).lookup v.id = none) ∧
      (u.skills = [] → ∀ p ∈ get_content_recommendations st uid, p.2 = 0) ∧
      (∀ sk : List String, sk.Nodup →
        (sk.countP (fun skill => decide (skill ∈ u.skills)) : ℚ)
          = ((sk.toFinset ∩ u.skills.toFinset).card : ℚ)) := by
  intro st uid u hconn hfu hnd
  rw [content_eq hconn hfu]
  refine ⟨?_, ?_, ?_, ?_⟩
  · intro hlen v hv hvq
    have hkeys := contentRows_keys_nodup st u hnd
    have hlen2 : (contentRows st u).length ≤ 100 := by
      unfold contentRows
      rw [List.length_map]
      exact hlen
    rw [lookup_take_sort hkeys hlen2]
    apply lookup_of_mem_nodup hkeys
    unfold contentRows
    exact List.mem_map.mpr ⟨v, List.mem_filter.mpr ⟨hv, by simpa using hvq⟩, rfl⟩
  · intro v hv hvzero
    apply lookup_take_sort_none
    rw [contentRows_keys]
    intro hmem
    obtain ⟨v2, hv2, he⟩ := List.mem_map.mp hmem
    obtain ⟨hv2m, hv2q⟩ := List.mem_filter.mp hv2
    obtain rfl : v2 = v := List.inj_on_of_nodup_map hnd hv2m hv he
    simp [hvzero] at hv2q
  · intro huempty p hp
    have hp2 := take_sortByScoreDesc_subset hp
    unfold contentRows at hp2
    obtain ⟨v, _, he⟩ := List.mem_map.mp hp2
    rw [← he]
    have hzero : v.skills.countP (fun skill => decide (skill ∈ u.skills)) = 0 :=
      List.countP_eq_zero.mpr fun a _ => by simp [huempty]
    simp [hzero]
  · intro sk hsk
    congr 1
    rw [List.countP_eq_length_filter,
      ← List.toFinset_card_of_nodup (hsk.filter _)]
    congr 1
    rw [List.toFinset_filter, ← Finset.filter_mem_eq_inter]
    apply Finset.filter_congr
    intro x _
    simp

/-- Claim C5 witness: user skills `{"Python"}`, listing `L1` with skills
`{"Python", "SQL"}` scores `0.5`; the zero-skill listing `L2` is absent
from the mapping. -/
theorem content_scores_spec_witness :
    (get_content_recommendations
        ⟨[⟨"u", ["Python"], [], none⟩],
         [⟨"L1", ["Python", "SQL"], none⟩, ⟨"L2", [], none⟩], [], [], true⟩
        "u").lookup "L1" = some (1/2) ∧
    (get_content_recommendations
        ⟨[⟨"u", ["Python"], [], none⟩],
         [⟨"L1", ["Python", "SQL"], none⟩, ⟨"L2", [], none⟩], [], [], true⟩
        "u").lookup "L2" = none := by
  have h := content_scores_spec
    ⟨[⟨"u", ["Python"], [], none⟩],
     [⟨"L1", ["Python", "SQL"], none⟩, ⟨"L2", [], none⟩], [], [], true⟩
    "u" ⟨"u", ["Python"], [], none⟩ rfl (by decide) (by decide)
  constructor
  · have h1 := h.1 (by decide) ⟨"L1", ["Python", "SQL"], none⟩ (by decide) (by decide)
    rw [h1]
    have hc : (["Python", "SQL"] : List String).countP
        (fun skill => decide (skill ∈ (["Python"] : List String))) = 1 := by decide
    have hcq : (((["Python", "SQL"] : List String).countP
          (fun skill => decide (skill ∈ (["Python"] : List String))) : ℚ)
        / (((["Python", "SQL"] : List String).length : ℕ) : ℚ)) = 1/2 := by
      rw [hc]
      norm_num
    exact congrArg some hcq
  · exact h.2.1 ⟨"L2", [], none⟩ (by decide) rfl

/-- The pigeonhole behind the C5 counterexample: with more than 100
listings carrying skills, the 100-row query cap leaves some
skill-bearing listing unmapped. -/
theorem content_overflow_missing :
    ∀ (st : GraphState) (uid : String) (u : UserRec),
      st.connected = true →
      findUser st uid = some u →
      (st.vacancies.map (fun v => v.id)).Nodup →
      100 < (st.vacancies.filter (fun v => v.skills.length > 0)).length →
      ∃ v ∈ st.vacancies, 0 < v.skills.length ∧
        (get_content_recommendations st uid).lookup v.id = none := by
  intro st uid u hconn hfu hnd hcount
  by_contra hno
  push_neg at hno
  have hsub : ((st.vacancies.filter (fun v => v.skills.length > 0)).map (fun v => v.id))
      ⊆ (get_content_recommendations st uid).map Prod.fst := by
    intro x hx
    obtain ⟨v, hv, rfl⟩ := List.mem_map.mp hx
    obtain ⟨hvm, hvq⟩ := List.mem_filter.mp hv
    have hne := hno v hvm (by simpa using hvq)
    cases hcase : (get_content_recommendations st uid).lookup v.id with
    | none => exact absurd hcase hne
    | some c => exact List.mem_map.mpr ⟨(v.id, c), lookup_mem hcase, rfl⟩
  have hndq : ((st.vacancies.filter (fun v => v.skills.length > 0)).map
      (fun v => v.id)).Nodup :=
    List.Nodup.sublist (List.Sublist.map _ (List.filter_sublist _)) hnd
  have hle := (hndq.subperm hsub).length_le
  rw [List.length_map, List.length_map] at hle
  have hout : (get_content_recommendations st uid).length ≤ 100 := by
    rw [content_eq hconn hfu]
    exact List.length_take_le _ _
  omega

/-- A store with 101 single-skill vacancies and one matching user. -/
def stManyVacancies : GraphState :=
  ⟨[⟨"u", ["s"], [], none⟩],
   (List.range 101).map (fun i => ⟨"v" ++ toString i, ["s"], none⟩),
   [], [], true⟩

/-- Claim C5, counterexample: 101 listings all have a non-empty skill
list, yet the content mapping (capped at 100 rows by the query's
`LIMIT 100`) leaves at least one of them unmapped — so the output does
NOT map every listing with a non-empty required-skill list. -/
theorem content_not_all_mapped :
    stManyVacancies.vacancies.length = 101 ∧
    (∀ v ∈ stManyVacancies.vacancies, 0 < v.skills.length) ∧
    ∃ v ∈ stManyVacancies.vacancies, 0 < v.skills.length ∧
      (get_content_recommendations stManyVacancies "u").lookup v.id = none := by
  refine ⟨by decide, by decide, ?_⟩
  exact content_overflow_missing stManyVacancies "u" ⟨"u", ["s"], [], none⟩
    rfl (by decide) (by decide) (by decide)

end HHNeo4j
